import Mathlib

/-!
Shallow embedding of the mining orchestration engine of
`nuxhash/gui/mining.py` (the `MiningThread` class together with the
`sched.scheduler` timer queue it is built on), and proofs about its
behaviour.

Correspondence with the source:

* `SEvent`/`pickNext` model the `sched.scheduler` priority queue: Python's
  `sched` pops the event that is minimal in the lexicographic order
  (time, priority); `seq` is the insertion sequence number, used as a
  deterministic tie break (a heap never interleaves two events with equal
  `(time, priority)` keys in a way any claim here depends on).
* `MiningState` holds the mutable attributes of a `MiningThread`
  (`_current_payrates`, `_assignments`, the per-algorithm device sets,
  the engine processes behind the miners) plus the instrumentation needed
  for the proofs: a `trace` of the externally observable calls
  (`set_devices`, `unload`, posting a status event) and a `log`.
* `switchAlgos`, `readStatus`, `stopMining` embed `_switch_algos`,
  `_read_status` and `_stop_mining`.  Exceptions are explicit: a job
  returns `JobOut.raised st e` when the corresponding Python code raises,
  carrying the partially mutated state, exactly as the interpreter leaves
  the object attributes behind when an exception propagates.
* The file `mining.py` never imports `socket`, yet both `except` clauses
  around the profitability fetch name `socket.error`.  When any exception
  is raised inside those `try` blocks, CPython evaluates the tuple of the
  first `except` clause and raising `NameError` on the unbound global
  `socket`; this is embedded directly in `switchAlgos`.
* External collaborators (the NiceHash fetch, `NaiveSwitcher.decide`,
  `current_speeds`, the liveness query) are oracles in `Oracle`.  The
  engine side of `reload`/`unload`/`is_running` is not under `src/`;
  it is modelled from the spec: `reload` restarts the engine (its
  `is_running` becomes true), `unload` terminates it.
-/

namespace Nux

/-- An algorithm handle as exposed by a miner: `id` models Python object
identity (default `==` on these objects is identity), `name` is
`algorithm.name`, `algorithms` the list of sub-algorithm identifiers, and
`parent` the id of the backing miner/engine (`algorithm.parent`). -/
structure Algorithm where
  id : Nat
  name : String
  algorithms : List String
  parent : Nat
  deriving DecidableEq, Repr

/-- Python exceptions that the embedded code can raise. -/
inductive PyError where
  | nameError (s : String)
  | keyError
  | indexError
  | attributeError
  | externalError
  deriving DecidableEq, Repr

/-- Outcome of one call to `nicehash.simplemultialgo_info`.  `fail` covers
every exception raised inside the `try` block (socket errors, `SSLError`,
`URLError`, `BadResponseError`, ...): in the source all of them hit the
first `except` clause, whose tuple references the unbound global `socket`. -/
inductive FetchResult where
  | ok (payrates : List (String × Rat))
  | fail
  deriving DecidableEq, Repr

/-- State of one mining engine process, with instrumentation counters for
`reload()` and `unload()` calls.  Modelled from the spec: `is_running`
reports `running`; `reload` restarts the engine; `unload` terminates it. -/
structure EngineState where
  running : Bool
  reloads : Nat
  unloads : Nat
  deriving DecidableEq, Repr

/-- The three job bodies a scheduler event can invoke. -/
inductive JobKind where
  | switchAlgos
  | readStatus
  | stopMining
  deriving DecidableEq, Repr

/-- A `sched.scheduler` event: due time, priority, insertion sequence
number and the job to run. -/
structure SEvent where
  time : Nat
  priority : Nat
  seq : Nat
  job : JobKind
  deriving DecidableEq, Repr

/-- Externally observable calls made by the orchestration loop, in
program order. -/
inductive TraceEvent where
  | setDev (algoId : Nat) (devs : List Nat)
  | unload (minerId : Nat)
  | emitStatus
  | stopStart
  deriving DecidableEq, Repr

/-- Log records produced by the loop. -/
inductive LogMsg where
  | warnStats
  | errCrash (algoName : String)
  | infoStopping
  deriving DecidableEq, Repr

/-- The payload of one `MiningStatusEvent` posted to the window. -/
structure Snapshot where
  speeds : List (Algorithm × List Rat)
  revenue : List (Algorithm × Rat)
  devices : List (Algorithm × List Nat)
  deriving DecidableEq

/-- The mutable state of a `MiningThread` together with the scheduler
queue and the engine-side state it drives. -/
structure MiningState where
  now : Nat
  seqCtr : Nat
  queue : List SEvent
  loopAlive : Bool
  stopSignal : Bool
  interval : Nat
  devices : List Nat
  algorithms : List Algorithm
  miners : List Nat
  benchmarks : Nat → List (String × List Rat)
  currentPayrates : Option (List (String × Rat))
  assignments : Option (List (Nat × Algorithm))
  deviceSets : List (Nat × List Nat)
  engines : List (Nat × EngineState)
  snapshots : List Snapshot
  trace : List TraceEvent
  log : List LogMsg

/-- Oracles for the external collaborators of one job invocation. -/
structure Oracle where
  fetch : FetchResult
  decideO : List (Nat × Algorithm)
  speedsO : Algorithm → List Rat
  liveR : Nat → Bool

/-- `MINING_UPDATE_SECS = 5`. -/
def MINING_UPDATE_SECS : Nat := 5

/-- `MiningThread.PROFIT_PRIORITY = 1`. -/
def PROFIT_PRIORITY : Nat := 1

/-- `MiningThread.STATUS_PRIORITY = 2`. -/
def STATUS_PRIORITY : Nat := 2

/-- `MiningThread.STOP_PRIORITY = 0`. -/
def STOP_PRIORITY : Nat := 0

/-- Replace the binding of key `k` (or append it), as Python dict item
assignment does. -/
def updateAssoc {β : Type} (k : Nat) (v : β) : List (Nat × β) → List (Nat × β)
  | [] => [(k, v)]
  | (k', v') :: rest =>
    if k' = k then (k, v) :: rest else (k', v') :: updateAssoc k v rest

/-- `scheduler.enter(delay, priority, job)`: insert an event due at
`now + delay`. -/
def schedEnter (delay priority : Nat) (j : JobKind) (st : MiningState) : MiningState :=
  { st with
      queue := st.queue ++ [⟨st.now + delay, priority, st.seqCtr, j⟩]
      seqCtr := st.seqCtr + 1 }

/-- The strict order in which `sched` pops events: lexicographic on
(time, priority), with the insertion sequence number as the final tie
break. -/
def evLt (a b : SEvent) : Prop :=
  a.time < b.time ∨
    (a.time = b.time ∧
      (a.priority < b.priority ∨ (a.priority = b.priority ∧ a.seq < b.seq)))

instance (a b : SEvent) : Decidable (evLt a b) := by
  unfold evLt
  exact inferInstance

/-- The event `sched.run` pops next: the `evLt`-minimal element of the
queue. -/
def pickNext : List SEvent → Option SEvent
  | [] => none
  | e :: es =>
    match pickNext es with
    | none => some e
    | some m => if evLt m e then some m else some e

/-- The initial seeding performed by `MiningThread.run`: the profit-switch
job is entered first, then the status job, both with delay 0. -/
def initialSeed (st : MiningState) : MiningState :=
  schedEnter 0 STATUS_PRIORITY .readStatus
    (schedEnter 0 PROFIT_PRIORITY .switchAlgos st)

/-- Python dict lookup `d[k]`: `KeyError` when the key is absent. -/
def pyLookup (k : String) (l : List (String × Rat)) : Except PyError Rat :=
  match l.lookup k with
  | some v => Except.ok v
  | none => Except.error PyError.keyError

/-- Python list indexing `l[i]`: `IndexError` when out of range. -/
def pyGet {α : Type} [Inhabited α] (l : List α) (i : Nat) : Except PyError α :=
  if i < l.length then Except.ok (l.getD i default) else Except.error PyError.indexError

/-- Python `sum` over a list comprehension: the comprehension evaluates
every term (the first raising term aborts), then the values are summed. -/
def exceptSum : List (Except PyError Rat) → Except PyError Rat
  | [] => Except.ok 0
  | x :: xs =>
    match x with
    | Except.error e => Except.error e
    | Except.ok v =>
      match exceptSum xs with
      | Except.error e => Except.error e
      | Except.ok s => Except.ok (v + s)

/-- One term `payrates[algorithm.algorithms[i]] * benchmarks[algorithm.name][i]`
of the revenue sum in `_switch_algos`. -/
def revTerm (payrates : List (String × Rat)) (bench : List Rat) (a : Algorithm)
    (i : Nat) : Except PyError Rat :=
  match pyLookup (a.algorithms.getD i "") payrates with
  | Except.error e => Except.error e
  | Except.ok p =>
    match pyGet bench i with
    | Except.error e => Except.error e
    | Except.ok b => Except.ok (p * b)

/-- The inner `revenue(device, algorithm)` function of `_switch_algos`:
if the device's benchmark table has an entry for the algorithm's name,
sum `payrates[sub_i] * bench[i]` over the sub-algorithms, else `0.0`. -/
def revenue (payrates : List (String × Rat)) (benchmarks : Nat → List (String × List Rat))
    (device : Nat) (a : Algorithm) : Except PyError Rat :=
  match (benchmarks device).lookup a.name with
  | some bench => exceptSum ((List.range a.algorithms.length).map (revTerm payrates bench a))
  | none => Except.ok 0

/-- The `revenues` dict comprehension of `_switch_algos`: outer loop over
devices, inner loop over algorithms. -/
def revenueTable (payrates : List (String × Rat))
    (benchmarks : Nat → List (String × List Rat)) (devices : List Nat)
    (algos : List Algorithm) : Except PyError (List (Nat × List (Algorithm × Rat))) :=
  devices.mapM (fun d =>
    (algos.mapM (fun a => (revenue payrates benchmarks d a).map (fun r => (a, r)))).map
      (fun row => (d, row)))

/-- Helper for `pyDedup`: drop elements already seen. -/
def pyDedupAux {α : Type} [DecidableEq α] (seen : List α) : List α → List α
  | [] => []
  | x :: xs => if x ∈ seen then pyDedupAux seen xs else x :: pyDedupAux (x :: seen) xs

/-- The key list of a Python dict built from `l`: duplicates removed,
first-occurrence order kept. -/
def pyDedup {α : Type} [DecidableEq α] (l : List α) : List α :=
  pyDedupAux [] l

/-- A Python dict comprehension with a pure value function. -/
def dictComp {α β : Type} [DecidableEq α] (keys : List α) (f : α → β) : List (α × β) :=
  (pyDedup keys).map (fun k => (k, f k))

/-- A dict comprehension whose value computation can raise. -/
def dictCompE {α β : Type} (f : α → Except PyError β) :
    List α → Except PyError (List (α × β))
  | [] => Except.ok []
  | k :: rest =>
    match f k with
    | Except.error e => Except.error e
    | Except.ok v =>
      match dictCompE f rest with
      | Except.error e => Except.error e
      | Except.ok tl => Except.ok ((k, v) :: tl)

/-- One term `self._current_payrates[multialgorithm] * speeds[algorithm][i]`
of the revenue sum in `_read_status`. -/
def statusTerm (payrates : List (String × Rat)) (spd : List Rat) (a : Algorithm)
    (i : Nat) : Except PyError Rat :=
  match pyLookup (a.algorithms.getD i "") payrates with
  | Except.error e => Except.error e
  | Except.ok p =>
    match pyGet spd i with
    | Except.error e => Except.error e
    | Except.ok s => Except.ok (p * s)

/-- The per-algorithm revenue computed by `_read_status`. -/
def statusRevenue (payrates : List (String × Rat)) (spd : List Rat)
    (a : Algorithm) : Except PyError Rat :=
  exceptSum ((List.range a.algorithms.length).map (statusTerm payrates spd a))

/-- The list comprehension
`[device for device, algorithm in assignment.items() if algorithm == a]`
(`==` on these objects is identity, modelled by full structure equality
with distinct `id` fields). -/
def inverseImage (asg : List (Nat × Algorithm)) (a : Algorithm) : List Nat :=
  (asg.filter (fun p => decide (p.2 = a))).map Prod.fst

/-- `algorithm.set_devices(devs)`: the engine-side device set is replaced
and the call is recorded in the trace. -/
def setDevices (aid : Nat) (devs : List Nat) (st : MiningState) : MiningState :=
  { st with
      deviceSets := updateAssoc aid devs st.deviceSets
      trace := st.trace ++ [TraceEvent.setDev aid devs] }

/-- The apply loop of `_switch_algos`: one `set_devices` call per
algorithm, in list order. -/
def applyAssignment (algos : List Algorithm) (asg : List (Nat × Algorithm))
    (st : MiningState) : MiningState :=
  algos.foldl (fun s a => setDevices a.id (inverseImage asg a) s) st

/-- Result of one job invocation: normal return, or an exception carrying
the partially mutated state the interpreter leaves behind. -/
inductive JobOut where
  | ok (st : MiningState)
  | raised (st : MiningState) (e : PyError)

/-- `MiningThread._switch_algos`.  On any fetch failure the first
`except` clause is evaluated and raises `NameError` on the unbound global
`socket`, so the job aborts before logging or rescheduling.  On success
`_current_payrates` is updated, the revenue table is computed (its
exceptions propagate), the decision oracle's assignment is stored and
applied, and the job re-enters itself after `interval` seconds. -/
def switchAlgos (fetch : FetchResult) (dec : List (Nat × Algorithm))
    (st : MiningState) : JobOut :=
  match fetch with
  | FetchResult.fail => JobOut.raised st (PyError.nameError "socket")
  | FetchResult.ok pr =>
    let st1 := { st with currentPayrates := some pr }
    match revenueTable pr st1.benchmarks st1.devices st1.algorithms with
    | Except.error e => JobOut.raised st1 e
    | Except.ok _ =>
      let st2 := { st1 with assignments := some dec }
      let st3 := applyAssignment st2.algorithms dec st2
      JobOut.ok (schedEnter st3.interval PROFIT_PRIORITY JobKind.switchAlgos st3)

/-- The crash-check loop of `_read_status`: for each algorithm in the
assignment's values (duplicates included), query `parent.is_running()`
(an external call that may itself raise, oracle `liveR`); when the engine
is down, log an error and `reload()` it.  Modelled from the spec: a
reloaded (restarted) engine is running again. -/
def foldCheck (liveR : Nat → Bool) : List Algorithm → MiningState → JobOut
  | [], st => JobOut.ok st
  | a :: rest, st =>
    if liveR a.parent then JobOut.raised st PyError.externalError
    else
      match st.engines.lookup a.parent with
      | none => JobOut.raised st PyError.attributeError
      | some es =>
        if es.running then foldCheck liveR rest st
        else
          foldCheck liveR rest
            { st with
                log := st.log ++ [LogMsg.errCrash a.name]
                engines := updateAssoc a.parent ⟨true, es.reloads + 1, es.unloads⟩ st.engines }

/-- `MiningThread._read_status`: check engine liveness (restarting dead
engines), build the speeds, revenue and devices dicts keyed by the
assignment's values, post one status snapshot, and re-enter itself after
`MINING_UPDATE_SECS`. -/
def readStatus (o : Oracle) (st : MiningState) : JobOut :=
  match st.assignments with
  | none => JobOut.raised st PyError.attributeError
  | some asg =>
    match foldCheck o.liveR (asg.map Prod.snd) st with
    | JobOut.raised st' e => JobOut.raised st' e
    | JobOut.ok st1 =>
      let speeds := dictComp (asg.map Prod.snd) (fun a => o.speedsO a)
      match st1.currentPayrates with
      | none => JobOut.raised st1 PyError.attributeError
      | some pr =>
        match dictCompE (fun a => statusRevenue pr (o.speedsO a) a)
            (pyDedup (asg.map Prod.snd)) with
        | Except.error e => JobOut.raised st1 e
        | Except.ok revs =>
          let devs := dictComp (asg.map Prod.snd) (fun a => inverseImage asg a)
          let st2 := { st1 with
              snapshots := st1.snapshots ++ [⟨speeds, revs, devs⟩]
              trace := st1.trace ++ [TraceEvent.emitStatus] }
          JobOut.ok (schedEnter MINING_UPDATE_SECS STATUS_PRIORITY JobKind.readStatus st2)

/-- `miner.unload()`: terminate the engine process (modelled from the
spec), with an instrumentation counter and an observable trace event. -/
def unloadMiner (m : Nat) (st : MiningState) : MiningState :=
  let es := (st.engines.lookup m).getD ⟨false, 0, 0⟩
  { st with
      engines := updateAssoc m ⟨false, es.reloads, es.unloads + 1⟩ st.engines
      trace := st.trace ++ [TraceEvent.unload m] }

/-- `MiningThread._stop_mining`: log, clear every algorithm's device set,
unload every miner, then drain the scheduler queue.  (`_algorithms` and
`_miners` are never mutated, so reading them once up front is faithful.) -/
def stopMining (st : MiningState) : MiningState :=
  { (st.miners.foldl (fun s m => unloadMiner m s)
      (st.algorithms.foldl (fun s a => setDevices a.id [] s)
        { st with
            log := st.log ++ [LogMsg.infoStopping]
            trace := st.trace ++ [TraceEvent.stopStart] })) with
    queue := [] }

/-- Dispatch one scheduler event to its job body. -/
def runJob (o : Oracle) (j : JobKind) (st : MiningState) : JobOut :=
  match j with
  | JobKind.switchAlgos => switchAlgos o.fetch o.decideO st
  | JobKind.readStatus => readStatus o st
  | JobKind.stopMining => JobOut.ok (stopMining st)

/-- One iteration of `sched.run`: pop the minimal event (none left means
the loop returns and the thread terminates), wait until it is due, run
it; an exception raised by the job propagates out of `run` and kills the
loop. -/
def schedStep (o : Oracle) (st : MiningState) : MiningState :=
  if st.loopAlive then
    match pickNext st.queue with
    | none => { st with loopAlive := false }
    | some e =>
      let st1 := { st with queue := st.queue.erase e, now := Nat.max st.now e.time }
      match runJob o e.job st1 with
      | JobOut.ok st2 => st2
      | JobOut.raised st2 _ => { st2 with loopAlive := false }
  else st

/-- Run the scheduler loop for `fuel` iterations, with one oracle per
iteration. -/
def schedRun (o : Nat → Oracle) : Nat → MiningState → MiningState
  | 0, st => st
  | n + 1, st => schedRun o n (schedStep (o n) st)

/-- `MiningThread.stop`: enter the stop job with delay 0 at priority 0
and set the stop signal.  It never raises and performs no shutdown side
effect itself. -/
def stopCall (st : MiningState) : MiningState :=
  { schedEnter 0 STOP_PRIORITY JobKind.stopMining st with stopSignal := true }

/-- True when some `emitStatus` occurs after some `stopStart` in the
trace. -/
def emitAfterStopB : List TraceEvent → Bool
  | [] => false
  | TraceEvent.stopStart :: rest =>
    rest.contains TraceEvent.emitStatus || emitAfterStopB rest
  | _ :: rest => emitAfterStopB rest

/-- Recognizer for `set_devices` trace events. -/
def TraceEvent.isSetDevB : TraceEvent → Bool
  | TraceEvent.setDev _ _ => true
  | _ => false

/-- Recognizer for `unload` trace events. -/
def TraceEvent.isUnloadB : TraceEvent → Bool
  | TraceEvent.unload _ => true
  | _ => false

/-- The trace suffix produced by one `_stop_mining` run. -/
def shutdownTrace (st : MiningState) : List TraceEvent :=
  (stopMining st).trace.drop st.trace.length

-- ### Concrete events and states used by counterexamples and witnesses

/-- A two-sub-algorithm algorithm X over sub-algorithms A and B, as in the
C4 scenario of the spec. -/
def algoX : Algorithm := ⟨0, "X", ["A", "B"], 0⟩

/-- Payrates A = 1.0, B = 2.0. -/
def prC4 : List (String × Rat) := [("A", 1), ("B", 2)]

/-- A benchmark table giving every device the entry X = [10, 5]. -/
def bmC4 : Nat → List (String × List Rat) := fun _ => [("X", [10, 5])]

/-- A benchmark table with no entry for any device. -/
def bmNone : Nat → List (String × List Rat) := fun _ => []

/-- A status job that became due at time 5 (the job was delayed because a
previous job ran long). -/
def evOverdue : SEvent := ⟨5, STATUS_PRIORITY, 0, JobKind.readStatus⟩

/-- A stop job entered with delay 0 at the current time 10. -/
def evStop : SEvent := ⟨10, STOP_PRIORITY, 1, JobKind.stopMining⟩

/-- A fresh `MiningState` with everything empty, used as the base of the
concrete states in witnesses and counterexamples. -/
def baseState : MiningState :=
  { now := 0, seqCtr := 0, queue := [], loopAlive := true, stopSignal := false
    interval := 30, devices := [], algorithms := [], miners := []
    benchmarks := fun _ => [], currentPayrates := none, assignments := none
    deviceSets := [], engines := [], snapshots := [], trace := [], log := [] }

/-- Algorithm gaining device 7 in the C3 counterexample. -/
def algA : Algorithm := ⟨0, "equihash", ["eq"], 0⟩

/-- Algorithm losing device 7 in the C3 counterexample. -/
def algB : Algorithm := ⟨1, "daggerhashimoto", ["dg"], 0⟩

/-- A running state in which the previous cycle assigned device 7 to
`algB`, so `algB`'s engine-side device set still holds it. -/
def stC3 : MiningState :=
  { baseState with algorithms := [algA, algB], deviceSets := [(1, [7])] }

/-- The new assignment moving device 7 to `algA`. -/
def asgC3 : List (Nat × Algorithm) := [(7, algA)]

/-- A single-sub-algorithm algorithm used in the C1/C2 scenario. -/
def algW : Algorithm := ⟨0, "neoscrypt", ["ns"], 0⟩

/-- A running state whose queue holds the next profit-switch job, due
now. -/
def stSwitch : MiningState :=
  { baseState with
      now := 10, algorithms := [algW], miners := [0], devices := [7]
      engines := [(0, ⟨true, 0, 0⟩)]
      currentPayrates := some [("ns", 1)]
      assignments := some [(7, algW)]
      deviceSets := [(0, [7])]
      queue := [⟨10, PROFIT_PRIORITY, 0, JobKind.switchAlgos⟩]
      interval := 60 }

/-- An oracle whose profitability fetch fails (a `URLError` and the
like); engines are healthy. -/
def oFail : Oracle :=
  { fetch := FetchResult.fail, decideO := [(7, algW)]
    speedsO := fun _ => [1], liveR := fun _ => false }

/-- A state whose scheduler loop has terminated. -/
def stDead : MiningState := { baseState with loopAlive := false }

/-- A running state with one algorithm and one miner, used to witness the
shutdown ordering. -/
def stW5 : MiningState := { baseState with algorithms := [algA], miners := [9] }

/-- A running state with a pending status job, against which `stop()` is
called in the C6 witness. -/
def stRun : MiningState :=
  { stSwitch with queue := [⟨10, STATUS_PRIORITY, 0, JobKind.readStatus⟩] }

/-- An active algorithm whose engine (miner 5) has crashed, for the C8
witness. -/
def algC8 : Algorithm := ⟨3, "lyra2rev2", ["l2"], 5⟩

/-- A running state in which `algC8` is assigned device 7 and its engine
reports not running (2 reloads so far). -/
def stC8 : MiningState :=
  { baseState with
      algorithms := [algC8], miners := [5]
      engines := [(5, ⟨false, 2, 0⟩)]
      currentPayrates := some [("l2", 2)]
      assignments := some [(7, algC8)] }

/-- Oracle for the C8 witness: healthy queries, one sub-algorithm speed. -/
def oC8 : Oracle :=
  { fetch := FetchResult.ok [("l2", 2)], decideO := [(7, algC8)]
    speedsO := fun _ => [4], liveR := fun _ => false }

/-- An algorithm assigned to two devices at once, for the C10 witness. -/
def algC10 : Algorithm := ⟨4, "x16r", ["xr"], 6⟩

/-- A running state in which devices 7 and 8 are both assigned to
`algC10`, whose engine is healthy. -/
def stC10 : MiningState :=
  { baseState with
      algorithms := [algC10], miners := [6]
      engines := [(6, ⟨true, 0, 0⟩)]
      currentPayrates := some [("xr", 1)]
      assignments := some [(7, algC10), (8, algC10)] }

/-- Oracle for the C10 witness. -/
def oC10 : Oracle :=
  { fetch := FetchResult.ok [("xr", 1)], decideO := [(7, algC10), (8, algC10)]
    speedsO := fun _ => [3], liveR := fun _ => false }

-- ### Scheduler order lemmas

theorem evLt_irrefl (a : SEvent) : ¬ evLt a a := by
  unfold evLt; omega

theorem evLt_asymm {a b : SEvent} : evLt a b → ¬ evLt b a := by
  unfold evLt; omega

theorem evLt_trans {a b c : SEvent} : evLt a b → evLt b c → evLt a c := by
  unfold evLt; omega

theorem evLt_total (a b : SEvent) :
    evLt a b ∨ evLt b a ∨ (a.time = b.time ∧ a.priority = b.priority ∧ a.seq = b.seq) := by
  unfold evLt; omega

theorem evLt_congr_right {x a b : SEvent} (h : evLt x a)
    (ht : a.time = b.time) (hp : a.priority = b.priority) (hs : a.seq = b.seq) :
    evLt x b := by
  unfold evLt at *; omega

theorem pickNext_eq_none {q : List SEvent} (h : pickNext q = none) : q = [] := by
  cases q with
  | nil => rfl
  | cons e es =>
    exfalso
    simp only [pickNext] at h
    cases hes : pickNext es with
    | none =>
      rw [hes] at h
      exact Option.noConfusion h
    | some m =>
      rw [hes] at h
      have h2 : (if evLt m e then some m else some e) = none := h
      by_cases hlt : evLt m e
      · rw [if_pos hlt] at h2; exact Option.noConfusion h2
      · rw [if_neg hlt] at h2; exact Option.noConfusion h2

theorem pickNext_mem {q : List SEvent} {m : SEvent} (h : pickNext q = some m) :
    m ∈ q := by
  induction q with
  | nil => exact Option.noConfusion h
  | cons e es ih =>
    simp only [pickNext] at h
    cases hes : pickNext es with
    | none =>
      rw [hes] at h
      have he : e = m := by injection h
      rw [← he]
      exact List.mem_cons_self _ _
    | some m' =>
      rw [hes] at h
      have h2 : (if evLt m' e then some m' else some e) = some m := h
      by_cases hlt : evLt m' e
      · rw [if_pos hlt] at h2
        have hm : m' = m := by injection h2
        rw [hm] at hes
        exact List.mem_cons_of_mem _ (ih hes)
      · rw [if_neg hlt] at h2
        have he : e = m := by injection h2
        rw [← he]
        exact List.mem_cons_self _ _

theorem pickNext_min : ∀ {q : List SEvent} {m : SEvent}, pickNext q = some m →
    ∀ x ∈ q, ¬ evLt x m := by
  intro q
  induction q with
  | nil => intro m h; exact Option.noConfusion h
  | cons e es ih =>
    intro m h
    simp only [pickNext] at h
    cases hes : pickNext es with
    | none =>
      rw [hes] at h
      have he : e = m := by injection h
      have hnil := pickNext_eq_none hes
      subst hnil
      intro x hx
      have hxe : x = e := by simpa using hx
      rw [hxe, he]
      exact evLt_irrefl m
    | some m' =>
      rw [hes] at h
      have h2 : (if evLt m' e then some m' else some e) = some m := h
      by_cases hlt : evLt m' e
      · rw [if_pos hlt] at h2
        have hm : m' = m := by injection h2
        rw [hm] at hes hlt
        intro x hx
        rcases List.mem_cons.mp hx with hxe | hxes
        · rw [hxe]
          exact fun hxm => evLt_asymm hlt hxm
        · exact ih hes x hxes
      · rw [if_neg hlt] at h2
        have he : e = m := by injection h2
        intro x hx
        rcases List.mem_cons.mp hx with hxe | hxes
        · rw [hxe, ← he]
          exact evLt_irrefl e
        · intro hxm
          have hxm' := ih hes x hxes
          rw [he] at hlt
          rcases evLt_total m' m with h1 | h2' | h3
          · exact hlt h1
          · exact hxm' (evLt_trans hxm h2')
          · exact hxm' (evLt_congr_right hxm h3.1.symm h3.2.1.symm h3.2.2.symm)

theorem pickNext_strict_min {q : List SEvent} {m : SEvent}
    (hm : m ∈ q) (hmin : ∀ x ∈ q, x ≠ m → evLt m x) : pickNext q = some m := by
  induction q with
  | nil => exact absurd hm (List.not_mem_nil m)
  | cons e es ih =>
    simp only [pickNext]
    rcases List.mem_cons.mp hm with hme | hes
    · cases h' : pickNext es with
      | none =>
        show some e = some m
        rw [← hme]
      | some m' =>
        have hm' := pickNext_mem h'
        have hnlt : ¬ evLt m' e := by
          intro hlt
          by_cases hmm : m' = m
          · rw [hmm, ← hme] at hlt
            exact evLt_irrefl m hlt
          · have hml := hmin m' (List.mem_cons_of_mem _ hm') hmm
            rw [hme] at hml
            exact evLt_asymm hml hlt
        show (if evLt m' e then some m' else some e) = some m
        rw [if_neg hnlt, ← hme]
    · have hrec : pickNext es = some m :=
        ih hes (fun x hx hne => hmin x (List.mem_cons_of_mem _ hx) hne)
      rw [hrec]
      show (if evLt m e then some m else some e) = some m
      by_cases hem : e = m
      · rw [hem, if_neg (evLt_irrefl m)]
      · have hlt : evLt m e := hmin e (List.mem_cons_self _ _) hem
        rw [if_pos hlt]

/-- Claim C7 (amended): among jobs due at the same instant, the scheduler
picks the one with the lower priority number first; a stop job (priority
0) is picked before every other job whose due time is the same or later;
and the initial profit-switch job seeded by `run` is picked before the
initial status job although both are entered with delay 0.  (The original
claim's stronger reading — that a freshly entered stop job runs before
any other *due* job — fails when another job is overdue; see the
counterexample.) -/
theorem claim_C7 :
    (∀ (q : List SEvent) (e₁ e₂ : SEvent), e₁ ∈ q → e₂ ∈ q →
        e₁.time = e₂.time → e₁.priority < e₂.priority → pickNext q ≠ some e₂) ∧
    (∀ (q : List SEvent) (s : SEvent), s ∈ q → s.priority = STOP_PRIORITY →
        (∀ e ∈ q, e ≠ s → s.time ≤ e.time ∧ 0 < e.priority) →
        pickNext q = some s) ∧
    (∀ st : MiningState, st.queue = [] →
        pickNext (initialSeed st).queue =
          some ⟨st.now, PROFIT_PRIORITY, st.seqCtr, JobKind.switchAlgos⟩) := by
  refine ⟨?_, ?_, ?_⟩
  · intro q e₁ e₂ h1 h2 ht hp hcon
    have hmin := pickNext_min hcon e₁ h1
    exact hmin (Or.inr ⟨ht, Or.inl hp⟩)
  · intro q s hs hs0 hmin
    apply pickNext_strict_min hs
    intro x hx hne
    obtain ⟨hts, hps⟩ := hmin x hx hne
    show s.time < x.time ∨
      (s.time = x.time ∧
        (s.priority < x.priority ∨ (s.priority = x.priority ∧ s.seq < x.seq)))
    rw [hs0]
    unfold STOP_PRIORITY
    omega
  · intro st h
    have hq : (initialSeed st).queue =
        [⟨st.now, PROFIT_PRIORITY, st.seqCtr, JobKind.switchAlgos⟩,
         ⟨st.now, STATUS_PRIORITY, st.seqCtr + 1, JobKind.readStatus⟩] := by
      simp [initialSeed, schedEnter, h]
    rw [hq]
    simp only [pickNext]
    have hne : ¬ evLt (⟨st.now, STATUS_PRIORITY, st.seqCtr + 1, JobKind.readStatus⟩ : SEvent)
        ⟨st.now, PROFIT_PRIORITY, st.seqCtr, JobKind.switchAlgos⟩ := by
      show ¬ (st.now < st.now ∨
        (st.now = st.now ∧ (2 < 1 ∨ (2 = 1 ∧ st.seqCtr + 1 < st.seqCtr))))
      omega
    rw [if_neg hne]

/-- Counterexample for C7 as stated: with a status job overdue since time
5 still in the queue, a stop job entered with zero delay at time 10 is
due, yet the scheduler picks the overdue status job first, because `sched`
orders by (time, priority) lexicographically. -/
theorem claim_C7_counterexample :
    evStop ∈ [evOverdue, evStop] ∧ evStop.priority = STOP_PRIORITY ∧
    evStop.time ≤ 10 ∧ evOverdue.time ≤ 10 ∧
    pickNext [evOverdue, evStop] = some evOverdue ∧ evOverdue ≠ evStop := by
  refine ⟨by decide, rfl, by decide, by decide, by decide, by decide⟩

/-- Witness for C7: the three parts of the amended claim applied at
concrete inputs. -/
theorem claim_C7_witness :
    pickNext [(⟨0, 1, 0, JobKind.switchAlgos⟩ : SEvent), ⟨0, 2, 1, JobKind.readStatus⟩] ≠
        some ⟨0, 2, 1, JobKind.readStatus⟩ ∧
    pickNext [(⟨10, 0, 2, JobKind.stopMining⟩ : SEvent), ⟨10, 2, 3, JobKind.readStatus⟩] =
        some ⟨10, 0, 2, JobKind.stopMining⟩ ∧
    pickNext (initialSeed baseState).queue =
        some ⟨baseState.now, PROFIT_PRIORITY, baseState.seqCtr, JobKind.switchAlgos⟩ := by
  refine ⟨?_, ?_, ?_⟩
  · exact claim_C7.1 _ ⟨0, 1, 0, JobKind.switchAlgos⟩ _ (by decide) (by decide) rfl (by decide)
  · exact claim_C7.2.1 _ _ (by decide) rfl (by decide)
  · exact claim_C7.2.2 baseState rfl

-- ### Association list and dict lemmas

theorem updateAssoc_lookup {β : Type} (k : Nat) (v : β) (l : List (Nat × β)) (q : Nat) :
    (updateAssoc k v l).lookup q = if q = k then some v else l.lookup q := by
  induction l with
  | nil =>
    by_cases h : q = k
    · have hb : (q == k) = true := beq_iff_eq.mpr h
      simp [updateAssoc, List.lookup, hb, h]
    · have hb : (q == k) = false := beq_eq_false_iff_ne.mpr h
      simp [updateAssoc, List.lookup, hb, h]
  | cons p rest ih =>
    obtain ⟨pk, pv⟩ := p
    simp only [updateAssoc]
    by_cases hpk : pk = k
    · subst hpk
      rw [if_pos rfl]
      by_cases hqk : q = pk
      · have hb : (q == pk) = true := beq_iff_eq.mpr hqk
        simp [List.lookup, hb, hqk]
      · have hb : (q == pk) = false := beq_eq_false_iff_ne.mpr hqk
        simp [List.lookup, hb, hqk]
    · rw [if_neg hpk]
      by_cases hqp : q = pk
      · have hb : (q == pk) = true := beq_iff_eq.mpr hqp
        have hqk : ¬ q = k := fun hc => hpk ((hqp ▸ hc : pk = k))
        simp [List.lookup, hb, hqk]
      · have hb : (q == pk) = false := beq_eq_false_iff_ne.mpr hqp
        simp [List.lookup, hb, ih]

-- ### Revenue (C4)

theorem exceptSum_map_ok {g : Nat → Except PyError Rat} {f : Nat → Rat} :
    ∀ l : List Nat, (∀ i ∈ l, g i = Except.ok (f i)) →
      exceptSum (l.map g) = Except.ok ((l.map f).sum) := by
  intro l
  induction l with
  | nil => intro _; rfl
  | cons i rest ih =>
    intro h
    have hi := h i (List.mem_cons_self _ _)
    have hrest := ih (fun j hj => h j (List.mem_cons_of_mem _ hj))
    simp only [List.map_cons, exceptSum, hi, hrest, List.sum_cons]

theorem revenue_formula (payrates : List (String × Rat))
    (benchmarks : Nat → List (String × List Rat)) (device : Nat) (a : Algorithm)
    (bench : List Rat) (hb : (benchmarks device).lookup a.name = some bench)
    (hlen : a.algorithms.length ≤ bench.length)
    (hpr : ∀ i < a.algorithms.length, (payrates.lookup (a.algorithms.getD i "")).isSome) :
    revenue payrates benchmarks device a =
      Except.ok (((List.range a.algorithms.length).map (fun i =>
        ((payrates.lookup (a.algorithms.getD i "")).getD 0) * bench.getD i 0)).sum) := by
  have hrev : revenue payrates benchmarks device a =
      exceptSum ((List.range a.algorithms.length).map (revTerm payrates bench a)) := by
    unfold revenue
    rw [hb]
  rw [hrev]
  apply exceptSum_map_ok
  intro i hi
  have hi' : i < a.algorithms.length := List.mem_range.mp hi
  obtain ⟨v, hv⟩ := Option.isSome_iff_exists.mp (hpr i hi')
  have hd0 : (default : Rat) = 0 := rfl
  unfold revTerm pyLookup pyGet
  rw [hv, if_pos (lt_of_lt_of_le hi' hlen)]
  simp [hv, hd0]

/-- Claim C4: the revenue computed by `_switch_algos` equals the sum over
sub-algorithms of payrate times benchmark throughput when a benchmark
entry exists for the device/algorithm pair, and 0.0 otherwise; concretely
with payrates A = 1.0, B = 2.0 and device 1's benchmark for X over [A, B]
being [10, 5], the revenue is 20.0. -/
theorem claim_C4 :
    (∀ (payrates : List (String × Rat)) (benchmarks : Nat → List (String × List Rat))
        (device : Nat) (a : Algorithm) (bench : List Rat),
        (benchmarks device).lookup a.name = some bench →
        a.algorithms.length ≤ bench.length →
        (∀ i < a.algorithms.length, (payrates.lookup (a.algorithms.getD i "")).isSome) →
        revenue payrates benchmarks device a =
          Except.ok (((List.range a.algorithms.length).map (fun i =>
            ((payrates.lookup (a.algorithms.getD i "")).getD 0) * bench.getD i 0)).sum)) ∧
    (∀ (payrates : List (String × Rat)) (benchmarks : Nat → List (String × List Rat))
        (device : Nat) (a : Algorithm),
        (benchmarks device).lookup a.name = none →
        revenue payrates benchmarks device a = Except.ok 0) ∧
    revenue prC4 bmC4 1 algoX = Except.ok 20 := by
  refine ⟨revenue_formula, ?_, ?_⟩
  · intro payrates benchmarks device a hb
    unfold revenue
    rw [hb]
  · rw [revenue_formula prC4 bmC4 1 algoX [10, 5] rfl (by decide) (by decide)]
    have hba : ("B" == "A") = false := by decide
    norm_num [algoX, prC4, List.range_succ, List.lookup, List.getD, hba]

/-- Witness for C4: both branches of the theorem applied at the concrete
scenario from the spec. -/
theorem claim_C4_witness :
    revenue prC4 bmC4 1 algoX =
      Except.ok (((List.range algoX.algorithms.length).map (fun i =>
        ((prC4.lookup (algoX.algorithms.getD i "")).getD 0) *
          ([10, 5] : List Rat).getD i 0)).sum) ∧
    revenue prC4 bmNone 1 algoX = Except.ok 0 := by
  constructor
  · exact claim_C4.1 prC4 bmC4 1 algoX [10, 5] rfl (by decide) (by decide)
  · exact claim_C4.2.1 prC4 bmNone 1 algoX rfl

-- ### Assignment application (C3)

theorem applyAssignment_cons (a : Algorithm) (rest : List Algorithm)
    (asg : List (Nat × Algorithm)) (st : MiningState) :
    applyAssignment (a :: rest) asg st =
      applyAssignment rest asg (setDevices a.id (inverseImage asg a) st) := rfl

theorem applyAssignment_skip (algos : List Algorithm) (asg : List (Nat × Algorithm))
    (st : MiningState) (k : Nat) (hk : k ∉ algos.map Algorithm.id) :
    (applyAssignment algos asg st).deviceSets.lookup k = st.deviceSets.lookup k := by
  induction algos generalizing st with
  | nil => rfl
  | cons a rest ih =>
    simp only [List.map_cons, List.mem_cons] at hk
    push_neg at hk
    rw [applyAssignment_cons, ih _ hk.2]
    simp only [setDevices]
    rw [updateAssoc_lookup, if_neg hk.1]

theorem applyAssignment_lookup (algos : List Algorithm) (asg : List (Nat × Algorithm))
    (st : MiningState) (hids : (algos.map Algorithm.id).Nodup) :
    ∀ a ∈ algos, (applyAssignment algos asg st).deviceSets.lookup a.id =
      some (inverseImage asg a) := by
  induction algos generalizing st with
  | nil => intro a ha; exact absurd ha (List.not_mem_nil a)
  | cons a0 rest ih =>
    simp only [List.map_cons, List.nodup_cons] at hids
    intro a ha
    rcases List.mem_cons.mp ha with ha0 | hrest
    · subst ha0
      rw [applyAssignment_cons, applyAssignment_skip _ _ _ _ hids.1]
      simp only [setDevices]
      rw [updateAssoc_lookup, if_pos rfl]
    · rw [applyAssignment_cons]
      exact ih _ hids.2 a hrest

theorem mem_inverseImage {asg : List (Nat × Algorithm)} {a : Algorithm} {d : Nat} :
    d ∈ inverseImage asg a ↔ (d, a) ∈ asg := by
  simp only [inverseImage, List.mem_map, List.mem_filter, decide_eq_true_eq]
  constructor
  · rintro ⟨⟨d', b⟩, ⟨hmem, hba⟩, hd⟩
    simp only at hba hd
    subst hba
    exact hd ▸ hmem
  · intro h
    exact ⟨(d, a), ⟨h, rfl⟩, rfl⟩

theorem nodupKeys_functional {asg : List (Nat × Algorithm)}
    (h : (asg.map Prod.fst).Nodup) {d : Nat} {x y : Algorithm}
    (hx : (d, x) ∈ asg) (hy : (d, y) ∈ asg) : x = y := by
  induction asg with
  | nil => exact absurd hx (List.not_mem_nil _)
  | cons p rest ih =>
    simp only [List.map_cons, List.nodup_cons] at h
    rcases List.mem_cons.mp hx with hx0 | hx1 <;> rcases List.mem_cons.mp hy with hy0 | hy1
    · have h2 : (d, x) = (d, y) := hx0.trans hy0.symm
      exact congrArg Prod.snd h2
    · exfalso
      apply h.1
      have hp1 : p.1 = d := by rw [← hx0]
      rw [hp1]
      exact List.mem_map.mpr ⟨(d, y), hy1, rfl⟩
    · exfalso
      apply h.1
      have hp1 : p.1 = d := by rw [← hy0]
      rw [hp1]
      exact List.mem_map.mpr ⟨(d, x), hx1, rfl⟩
    · exact ih h.2 hx1 hy1

/-- Claim C3 (amended): after the apply loop of `_switch_algos` has
completed, every algorithm's device set equals the inverse image of the
assignment under that algorithm, and consequently every device appears in
the device set of at most one algorithm at the instants outside the apply
loop.  (During the loop the invariant is transiently violated — see the
counterexample.) -/
theorem claim_C3 (algos : List Algorithm) (asg : List (Nat × Algorithm))
    (st : MiningState) (hids : (algos.map Algorithm.id).Nodup)
    (hkeys : (asg.map Prod.fst).Nodup) :
    (∀ a ∈ algos, (applyAssignment algos asg st).deviceSets.lookup a.id =
        some (inverseImage asg a)) ∧
    (∀ (d : Nat) (a a' : Algorithm), a ∈ algos → a' ∈ algos →
        d ∈ ((applyAssignment algos asg st).deviceSets.lookup a.id).getD [] →
        d ∈ ((applyAssignment algos asg st).deviceSets.lookup a'.id).getD [] →
        a = a') := by
  have hl := applyAssignment_lookup algos asg st hids
  refine ⟨hl, ?_⟩
  intro d a a' ha ha' hda hda'
  rw [hl a ha] at hda
  rw [hl a' ha'] at hda'
  simp only [Option.getD_some] at hda hda'
  exact nodupKeys_functional hkeys (mem_inverseImage.mp hda) (mem_inverseImage.mp hda')

/-- Counterexample for C3 as stated: in the middle of the apply loop —
after `set_devices` was pushed to `algA` but before `algB` was updated —
device 7 is in the device sets of both algorithms, so the claimed
invariant does not hold at every instant during Running. -/
theorem claim_C3_counterexample :
    applyAssignment [algA, algB] asgC3 stC3 =
      setDevices algB.id (inverseImage asgC3 algB)
        (setDevices algA.id (inverseImage asgC3 algA) stC3) ∧
    7 ∈ (((setDevices algA.id (inverseImage asgC3 algA) stC3).deviceSets.lookup
        algA.id).getD []) ∧
    7 ∈ (((setDevices algA.id (inverseImage asgC3 algA) stC3).deviceSets.lookup
        algB.id).getD []) ∧
    algA ≠ algB := by
  refine ⟨rfl, by decide, by decide, by decide⟩

/-- Witness for C3: the amended theorem applied at the concrete state of
the counterexample, after the loop has completed. -/
theorem claim_C3_witness :
    (applyAssignment [algA, algB] asgC3 stC3).deviceSets.lookup algA.id =
      some (inverseImage asgC3 algA) :=
  (claim_C3 [algA, algB] asgC3 stC3 (by decide) (by decide)).1 algA (by decide)

-- ### Job-level error containment (C1, C2)

/-- Claim C1 is refuted by the code (code bug): a profitability-fetch
failure inside `_switch_algos` makes the interpreter evaluate the first
`except` clause, which names the unimported global `socket`, raising
`NameError`; the exception propagates out of `sched.run`, the job does
not re-enter itself, and the loop terminates. -/
theorem claim_C1 :
    switchAlgos FetchResult.fail oFail.decideO stSwitch =
      JobOut.raised stSwitch (PyError.nameError "socket") ∧
    (schedStep oFail stSwitch).loopAlive = false ∧
    (schedStep oFail stSwitch).queue = [] := by
  exact ⟨rfl, rfl, rfl⟩

/-- Claim C2 is refuted by the code (code bug): in a cycle whose fetch
fails, no warning is logged and no next profit-switch cycle is scheduled;
the job aborts with `NameError` (`socket` is never imported) and the loop
dies.  The PayRates stay unchanged only because the whole job aborted. -/
theorem claim_C2 :
    (schedStep oFail stSwitch).log = stSwitch.log ∧
    (schedStep oFail stSwitch).currentPayrates = stSwitch.currentPayrates ∧
    (schedStep oFail stSwitch).queue = [] ∧
    (schedStep oFail stSwitch).loopAlive = false := by
  exact ⟨rfl, rfl, rfl, rfl⟩

-- ### Stop idempotence (C9)

theorem schedRun_dead (o : Nat → Oracle) (n : Nat) (st : MiningState)
    (h : st.loopAlive = false) : schedRun o n st = st := by
  induction n with
  | zero => rfl
  | succ n ih =>
    show schedRun o n (schedStep (o n) st) = st
    have hstep : schedStep (o n) st = st := by
      unfold schedStep
      rw [h]
      simp
    rw [hstep, ih]

/-- Claim C9: `stop()` only enqueues the stop job and sets the signal —
it raises nothing and performs no shutdown side effect itself (trace,
engines, device sets, log and snapshots unchanged); and once the
execution context has terminated, running the scheduler any further
changes nothing, so a second `stop()` after termination produces no
duplicate shutdown effects. -/
theorem claim_C9 (st : MiningState) :
    (stopCall st).trace = st.trace ∧
    (stopCall st).engines = st.engines ∧
    (stopCall st).deviceSets = st.deviceSets ∧
    (stopCall st).log = st.log ∧
    (stopCall st).snapshots = st.snapshots ∧
    (st.loopAlive = false → ∀ (o : Nat → Oracle) (n : Nat),
        schedRun o n (stopCall st) = stopCall st) := by
  refine ⟨rfl, rfl, rfl, rfl, rfl, ?_⟩
  intro h o n
  exact schedRun_dead o n (stopCall st) h

/-- Witness for C9: a second `stop()` against a terminated loop leaves
every shutdown-relevant component unchanged. -/
theorem claim_C9_witness :
    (stopCall stDead).trace = stDead.trace ∧
    schedRun (fun _ => oFail) 3 (stopCall stDead) = stopCall stDead :=
  ⟨(claim_C9 stDead).1, (claim_C9 stDead).2.2.2.2.2 rfl (fun _ => oFail) 3⟩

-- ### Shutdown ordering (C5)

theorem foldSetEmpty_spec (algos : List Algorithm) :
    ∀ s : MiningState,
      (algos.foldl (fun s a => setDevices a.id [] s) s).trace =
        s.trace ++ algos.map (fun a => TraceEvent.setDev a.id []) ∧
      (algos.foldl (fun s a => setDevices a.id [] s) s).miners = s.miners ∧
      (algos.foldl (fun s a => setDevices a.id [] s) s).queue = s.queue := by
  induction algos with
  | nil => intro s; exact ⟨by simp, rfl, rfl⟩
  | cons a rest ih =>
    intro s
    obtain ⟨h1, h2, h3⟩ := ih (setDevices a.id [] s)
    refine ⟨?_, ?_, ?_⟩
    · show (rest.foldl (fun s a => setDevices a.id [] s) (setDevices a.id [] s)).trace = _
      rw [h1]
      simp [setDevices]
    · show (rest.foldl (fun s a => setDevices a.id [] s) (setDevices a.id [] s)).miners = _
      rw [h2]
      rfl
    · show (rest.foldl (fun s a => setDevices a.id [] s) (setDevices a.id [] s)).queue = _
      rw [h3]
      rfl

theorem foldUnload_spec (ms : List Nat) :
    ∀ s : MiningState,
      (ms.foldl (fun s m => unloadMiner m s) s).trace =
        s.trace ++ ms.map TraceEvent.unload ∧
      (ms.foldl (fun s m => unloadMiner m s) s).queue = s.queue := by
  induction ms with
  | nil => intro s; exact ⟨by simp, rfl⟩
  | cons m rest ih =>
    intro s
    obtain ⟨h1, h2⟩ := ih (unloadMiner m s)
    refine ⟨?_, ?_⟩
    · show (rest.foldl (fun s m => unloadMiner m s) (unloadMiner m s)).trace = _
      rw [h1]
      simp [unloadMiner]
    · show (rest.foldl (fun s m => unloadMiner m s) (unloadMiner m s)).queue = _
      rw [h2]
      rfl

theorem stopMining_trace (st : MiningState) :
    (stopMining st).trace =
      st.trace ++ (TraceEvent.stopStart ::
        (st.algorithms.map (fun a => TraceEvent.setDev a.id []) ++
          st.miners.map TraceEvent.unload)) := by
  obtain ⟨h1, -, -⟩ := foldSetEmpty_spec st.algorithms
    { st with
        log := st.log ++ [LogMsg.infoStopping]
        trace := st.trace ++ [TraceEvent.stopStart] }
  obtain ⟨h2, -⟩ := foldUnload_spec st.miners
    (st.algorithms.foldl (fun s a => setDevices a.id [] s)
      { st with
          log := st.log ++ [LogMsg.infoStopping]
          trace := st.trace ++ [TraceEvent.stopStart] })
  show (st.miners.foldl (fun s m => unloadMiner m s)
      (st.algorithms.foldl (fun s a => setDevices a.id [] s)
        { st with
            log := st.log ++ [LogMsg.infoStopping]
            trace := st.trace ++ [TraceEvent.stopStart] })).trace = _
  rw [h2, h1]
  simp

theorem shutdownTrace_eq (st : MiningState) :
    shutdownTrace st = TraceEvent.stopStart ::
      (st.algorithms.map (fun a => TraceEvent.setDev a.id []) ++
        st.miners.map TraceEvent.unload) := by
  unfold shutdownTrace
  rw [stopMining_trace]
  exact List.drop_left _ _

/-- Claim C5: when the shutdown job runs, every algorithm receives
`set_devices([])` and every miner receives `unload()`, every
`set_devices` call precedes every `unload` call, and afterwards the
scheduler queue is empty, so no previously scheduled job can run. -/
theorem claim_C5 (st : MiningState) :
    (stopMining st).queue = [] ∧
    (∀ a ∈ st.algorithms, TraceEvent.setDev a.id [] ∈ shutdownTrace st) ∧
    (∀ m ∈ st.miners, TraceEvent.unload m ∈ shutdownTrace st) ∧
    (∀ (i j : Nat) (e₁ e₂ : TraceEvent),
        (shutdownTrace st)[i]? = some e₁ → (shutdownTrace st)[j]? = some e₂ →
        e₁.isSetDevB = true → e₂.isUnloadB = true → i < j) := by
  refine ⟨rfl, ?_, ?_, ?_⟩
  · intro a ha
    rw [shutdownTrace_eq]
    exact List.mem_cons_of_mem _ (List.mem_append_left _ (List.mem_map.mpr ⟨a, ha, rfl⟩))
  · intro m hm
    rw [shutdownTrace_eq]
    exact List.mem_cons_of_mem _ (List.mem_append_right _ (List.mem_map.mpr ⟨m, hm, rfl⟩))
  · intro i j e₁ e₂ hi hj h1 h2
    rw [shutdownTrace_eq] at hi hj
    cases i with
    | zero =>
      exfalso
      have he : TraceEvent.stopStart = e₁ := by simpa using hi
      rw [← he] at h1
      simp [TraceEvent.isSetDevB] at h1
    | succ i' =>
      cases j with
      | zero =>
        exfalso
        have he : TraceEvent.stopStart = e₂ := by simpa using hj
        rw [← he] at h2
        simp [TraceEvent.isUnloadB] at h2
      | succ j' =>
        have hi' : (st.algorithms.map (fun a => TraceEvent.setDev a.id []) ++
            st.miners.map TraceEvent.unload)[i']? = some e₁ := by simpa using hi
        have hj' : (st.algorithms.map (fun a => TraceEvent.setDev a.id []) ++
            st.miners.map TraceEvent.unload)[j']? = some e₂ := by simpa using hj
        have hiA : i' < (st.algorithms.map (fun a => TraceEvent.setDev a.id [])).length := by
          by_contra hge
          push_neg at hge
          rw [List.getElem?_append_right hge] at hi'
          obtain ⟨m, -, hm⟩ := List.mem_map.mp (List.getElem?_mem hi')
          rw [← hm] at h1
          simp [TraceEvent.isSetDevB] at h1
        have hjU : (st.algorithms.map (fun a => TraceEvent.setDev a.id [])).length ≤ j' := by
          by_contra hlt
          push_neg at hlt
          rw [List.getElem?_append_left hlt] at hj'
          obtain ⟨a, -, ha⟩ := List.mem_map.mp (List.getElem?_mem hj')
          rw [← ha] at h2
          simp [TraceEvent.isUnloadB] at h2
        omega

/-- Witness for C5: the shutdown ordering applied at a concrete state
with one algorithm and one miner. -/
theorem claim_C5_witness :
    (stopMining stW5).queue = [] ∧
    TraceEvent.setDev algA.id [] ∈ shutdownTrace stW5 ∧
    TraceEvent.unload 9 ∈ shutdownTrace stW5 ∧
    (1 : Nat) < 2 := by
  obtain ⟨h1, h2, h3, h4⟩ := claim_C5 stW5
  refine ⟨h1, h2 algA (by decide), h3 9 (by decide), ?_⟩
  exact h4 1 2 (TraceEvent.setDev algA.id []) (TraceEvent.unload 9)
    (by decide) (by decide) (by decide) (by decide)

-- ### No status emission after shutdown (C6)

set_option linter.unnecessarySeqFocus false in
theorem emitAfterStop_append (l r : List TraceEvent) :
    emitAfterStopB (l ++ r) = true ↔
      emitAfterStopB l = true ∨ emitAfterStopB r = true ∨
        (TraceEvent.stopStart ∈ l ∧ TraceEvent.emitStatus ∈ r) := by
  induction l with
  | nil => simp [emitAfterStopB]
  | cons t l ih =>
    cases t <;> simp [emitAfterStopB, List.contains, ih, List.mem_append] <;> tauto

theorem no_stop_not_bad (l : List TraceEvent) (h : TraceEvent.stopStart ∉ l) :
    ¬ emitAfterStopB l = true := by
  induction l with
  | nil => simp [emitAfterStopB]
  | cons t l ih =>
    simp only [List.mem_cons] at h
    push_neg at h
    cases t with
    | stopStart => exact absurd rfl h.1
    | setDev i d => simpa [emitAfterStopB] using ih h.2
    | unload m => simpa [emitAfterStopB] using ih h.2
    | emitStatus => simpa [emitAfterStopB] using ih h.2

theorem applyAssignment_trace_queue (algos : List Algorithm)
    (asg : List (Nat × Algorithm)) :
    ∀ s : MiningState,
      (applyAssignment algos asg s).trace =
        s.trace ++ algos.map (fun a => TraceEvent.setDev a.id (inverseImage asg a)) ∧
      (applyAssignment algos asg s).queue = s.queue := by
  induction algos with
  | nil => intro s; exact ⟨(List.append_nil s.trace).symm, rfl⟩
  | cons a rest ih =>
    intro s
    obtain ⟨h1, h2⟩ := ih (setDevices a.id (inverseImage asg a) s)
    rw [applyAssignment_cons]
    refine ⟨?_, ?_⟩
    · rw [h1]
      simp [setDevices]
    · rw [h2]
      rfl

/-- The success branch of `_switch_algos`, written with flat record
updates (definitionally equal to the nested `let`s of the definition). -/
theorem switchAlgos_ok_eq (pr : List (String × Rat)) (dec : List (Nat × Algorithm))
    (st : MiningState) :
    switchAlgos (FetchResult.ok pr) dec st =
      match revenueTable pr st.benchmarks st.devices st.algorithms with
      | Except.error e => JobOut.raised { st with currentPayrates := some pr } e
      | Except.ok _ => JobOut.ok (schedEnter
          (applyAssignment st.algorithms dec
            { st with currentPayrates := some pr, assignments := some dec }).interval
          PROFIT_PRIORITY JobKind.switchAlgos
          (applyAssignment st.algorithms dec
            { st with currentPayrates := some pr, assignments := some dec })) := rfl

theorem switchAlgos_trace (f : FetchResult) (dec : List (Nat × Algorithm))
    (st : MiningState) :
    (∀ st2, switchAlgos f dec st = JobOut.ok st2 →
        ∃ ext, st2.trace = st.trace ++ ext ∧ TraceEvent.stopStart ∉ ext) ∧
    (∀ st2 e, switchAlgos f dec st = JobOut.raised st2 e → st2.trace = st.trace) := by
  cases f with
  | fail =>
    constructor
    · intro st2 h
      exact JobOut.noConfusion h
    · intro st2 e h
      injection h with h1 h2
      rw [← h1]
  | ok pr =>
    rw [switchAlgos_ok_eq]
    cases hrt : revenueTable pr st.benchmarks st.devices st.algorithms with
    | error e0 =>
      constructor
      · intro st2 h
        exact JobOut.noConfusion h
      · intro st2 e h
        injection h with h1 h2
        rw [← h1]
    | ok rows =>
      constructor
      · intro st2 h
        injection h with h1
        obtain ⟨ht, -⟩ := applyAssignment_trace_queue st.algorithms dec
          { st with currentPayrates := some pr, assignments := some dec }
        refine ⟨st.algorithms.map (fun a => TraceEvent.setDev a.id (inverseImage dec a)),
          ?_, ?_⟩
        · rw [← h1]
          show (applyAssignment st.algorithms dec
            { st with currentPayrates := some pr, assignments := some dec }).trace = _
          rw [ht]
        · simp
      · intro st2 e h
        exact JobOut.noConfusion h

/-- One unfolding step of the crash-check loop. -/
theorem foldCheck_cons_eq (liveR : Nat → Bool) (a : Algorithm) (rest : List Algorithm)
    (st : MiningState) :
    foldCheck liveR (a :: rest) st =
      if liveR a.parent then JobOut.raised st PyError.externalError
      else
        match st.engines.lookup a.parent with
        | none => JobOut.raised st PyError.attributeError
        | some es =>
          if es.running then foldCheck liveR rest st
          else
            foldCheck liveR rest
              { st with
                  log := st.log ++ [LogMsg.errCrash a.name]
                  engines := updateAssoc a.parent ⟨true, es.reloads + 1, es.unloads⟩
                    st.engines } := rfl

theorem foldCheck_trace (liveR : Nat → Bool) (l : List Algorithm) :
    ∀ st : MiningState,
      (∀ st', foldCheck liveR l st = JobOut.ok st' →
        st'.trace = st.trace ∧ st'.queue = st.queue) ∧
      (∀ st' e, foldCheck liveR l st = JobOut.raised st' e →
        st'.trace = st.trace ∧ st'.queue = st.queue) := by
  induction l with
  | nil =>
    intro st
    constructor
    · intro st' h
      injection h with h
      rw [← h]
      exact ⟨rfl, rfl⟩
    · intro st' e h
      exact JobOut.noConfusion h
  | cons a rest ih =>
    intro st
    by_cases hl : liveR a.parent
    · have heq : foldCheck liveR (a :: rest) st = JobOut.raised st PyError.externalError := by
        rw [foldCheck_cons_eq]
        simp only [hl]
        rfl
      rw [heq]
      constructor
      · intro st' h
        exact JobOut.noConfusion h
      · intro st' e h
        injection h with h1 h2
        rw [← h1]
        exact ⟨rfl, rfl⟩
    · cases heng : st.engines.lookup a.parent with
      | none =>
        have heq : foldCheck liveR (a :: rest) st =
            JobOut.raised st PyError.attributeError := by
          rw [foldCheck_cons_eq]
          simp only [hl, heng]
          rfl
        rw [heq]
        constructor
        · intro st' h
          exact JobOut.noConfusion h
        · intro st' e h
          injection h with h1 h2
          rw [← h1]
          exact ⟨rfl, rfl⟩
      | some es =>
        by_cases hrun : es.running
        · have heq : foldCheck liveR (a :: rest) st = foldCheck liveR rest st := by
            rw [foldCheck_cons_eq]
            simp only [hl, heng, hrun]
            rfl
          rw [heq]
          exact ih st
        · have heq : foldCheck liveR (a :: rest) st =
              foldCheck liveR rest
                { st with
                    log := st.log ++ [LogMsg.errCrash a.name]
                    engines := updateAssoc a.parent ⟨true, es.reloads + 1, es.unloads⟩
                      st.engines } := by
            rw [foldCheck_cons_eq]
            simp only [hl, heng, hrun]
            rfl
          rw [heq]
          obtain ⟨ho, hr⟩ := ih
            { st with
                log := st.log ++ [LogMsg.errCrash a.name]
                engines := updateAssoc a.parent ⟨true, es.reloads + 1, es.unloads⟩
                  st.engines }
          constructor
          · intro st' h
            exact ho st' h
          · intro st' e h
            exact hr st' e h

theorem readStatus_trace (o : Oracle) (st : MiningState) :
    (∀ st2, readStatus o st = JobOut.ok st2 →
        ∃ ext, st2.trace = st.trace ++ ext ∧ TraceEvent.stopStart ∉ ext) ∧
    (∀ st2 e, readStatus o st = JobOut.raised st2 e → st2.trace = st.trace) := by
  cases hasg : st.assignments with
  | none =>
    have heq : readStatus o st = JobOut.raised st PyError.attributeError := by
      unfold readStatus
      simp only [hasg]
    rw [heq]
    constructor
    · intro st2 h
      exact JobOut.noConfusion h
    · intro st2 e h
      injection h with h1 h2
      rw [← h1]
  | some asg =>
    cases hfc : foldCheck o.liveR (asg.map Prod.snd) st with
    | raised stA e0 =>
      have heq : readStatus o st = JobOut.raised stA e0 := by
        unfold readStatus
        simp only [hasg, hfc]
      rw [heq]
      obtain ⟨htr, -⟩ := (foldCheck_trace o.liveR (asg.map Prod.snd) st).2 stA e0 hfc
      constructor
      · intro st2 h
        exact JobOut.noConfusion h
      · intro st2 e h
        injection h with h1 h2
        rw [← h1, htr]
    | ok stA =>
      obtain ⟨htr, -⟩ := (foldCheck_trace o.liveR (asg.map Prod.snd) st).1 stA hfc
      cases hpr : stA.currentPayrates with
      | none =>
        have heq : readStatus o st = JobOut.raised stA PyError.attributeError := by
          unfold readStatus
          simp only [hasg, hfc, hpr]
        rw [heq]
        constructor
        · intro st2 h
          exact JobOut.noConfusion h
        · intro st2 e h
          injection h with h1 h2
          rw [← h1, htr]
      | some pr =>
        cases hdc : dictCompE (fun a => statusRevenue pr (o.speedsO a) a)
            (pyDedup (asg.map Prod.snd)) with
        | error e0 =>
          have heq : readStatus o st = JobOut.raised stA e0 := by
            unfold readStatus
            simp only [hasg, hfc, hpr, hdc]
          rw [heq]
          constructor
          · intro st2 h
            exact JobOut.noConfusion h
          · intro st2 e h
            injection h with h1 h2
            rw [← h1, htr]
        | ok revs =>
          have heq : readStatus o st = JobOut.ok (schedEnter MINING_UPDATE_SECS
              STATUS_PRIORITY JobKind.readStatus
              { stA with
                  snapshots := stA.snapshots ++
                    [⟨dictComp (asg.map Prod.snd) (fun a => o.speedsO a), revs,
                      dictComp (asg.map Prod.snd) (fun a => inverseImage asg a)⟩]
                  trace := stA.trace ++ [TraceEvent.emitStatus] }) := by
            unfold readStatus
            simp only [hasg, hfc, hpr, hdc]
          rw [heq]
          constructor
          · intro st2 h
            injection h with h1
            refine ⟨[TraceEvent.emitStatus], ?_, by simp⟩
            rw [← h1]
            show stA.trace ++ [TraceEvent.emitStatus] = st.trace ++ [TraceEvent.emitStatus]
            rw [htr]
          · intro st2 e h
            exact JobOut.noConfusion h

theorem shutdown_tail_no_marker (st : MiningState) :
    TraceEvent.stopStart ∉
      (st.algorithms.map (fun a => TraceEvent.setDev a.id []) ++
        st.miners.map TraceEvent.unload) ∧
    TraceEvent.emitStatus ∉
      (st.algorithms.map (fun a => TraceEvent.setDev a.id []) ++
        st.miners.map TraceEvent.unload) := by
  constructor
  · intro h
    rcases List.mem_append.mp h with h | h <;>
      · obtain ⟨x, -, hx⟩ := List.mem_map.mp h
        exact TraceEvent.noConfusion hx
  · intro h
    rcases List.mem_append.mp h with h | h <;>
      · obtain ⟨x, -, hx⟩ := List.mem_map.mp h
        exact TraceEvent.noConfusion hx

theorem schedStep_preserves (o : Oracle) (st : MiningState)
    (h1 : ¬ emitAfterStopB st.trace = true)
    (h2 : TraceEvent.stopStart ∈ st.trace → st.queue = []) :
    ¬ emitAfterStopB (schedStep o st).trace = true ∧
      (TraceEvent.stopStart ∈ (schedStep o st).trace → (schedStep o st).queue = []) := by
  by_cases halive : st.loopAlive
  case neg =>
    have heq : schedStep o st = st := by
      unfold schedStep
      rw [if_neg halive]
    rw [heq]
    exact ⟨h1, h2⟩
  case pos =>
    cases hpk : pickNext st.queue with
    | none =>
      have heq : schedStep o st = { st with loopAlive := false } := by
        unfold schedStep
        rw [if_pos halive, hpk]
      rw [heq]
      exact ⟨h1, h2⟩
    | some e =>
      have hnostop : TraceEvent.stopStart ∉ st.trace := by
        intro hmem
        have hq := h2 hmem
        have hmemq := pickNext_mem hpk
        rw [hq] at hmemq
        exact List.not_mem_nil e hmemq
      have heq : schedStep o st =
          (match runJob o e.job
              { st with queue := st.queue.erase e, now := Nat.max st.now e.time } with
           | JobOut.ok st2 => st2
           | JobOut.raised st2 _ => { st2 with loopAlive := false }) := by
        unfold schedStep
        rw [if_pos halive, hpk]
      rw [heq]
      cases hro : runJob o e.job
          { st with queue := st.queue.erase e, now := Nat.max st.now e.time } with
      | ok st2 =>
        have hgood : TraceEvent.stopStart ∉ st2.trace ∨
            (st2.trace = st.trace ++ (TraceEvent.stopStart ::
              (st.algorithms.map (fun a => TraceEvent.setDev a.id []) ++
                st.miners.map TraceEvent.unload)) ∧ st2.queue = []) := by
          cases hj : e.job with
          | switchAlgos =>
            have hro' : switchAlgos o.fetch o.decideO
                { st with queue := st.queue.erase e, now := Nat.max st.now e.time } =
                JobOut.ok st2 := by
              rw [← hro, hj]
              rfl
            obtain ⟨ext, hext, hns⟩ := (switchAlgos_trace o.fetch o.decideO _).1 st2 hro'
            left
            rw [hext]
            intro hmem
            rcases List.mem_append.mp hmem with hmem | hmem
            · exact hnostop hmem
            · exact hns hmem
          | readStatus =>
            have hro' : readStatus o
                { st with queue := st.queue.erase e, now := Nat.max st.now e.time } =
                JobOut.ok st2 := by
              rw [← hro, hj]
              rfl
            obtain ⟨ext, hext, hns⟩ := (readStatus_trace o _).1 st2 hro'
            left
            rw [hext]
            intro hmem
            rcases List.mem_append.mp hmem with hmem | hmem
            · exact hnostop hmem
            · exact hns hmem
          | stopMining =>
            have hro' : JobOut.ok (stopMining
                { st with queue := st.queue.erase e, now := Nat.max st.now e.time }) =
                JobOut.ok st2 := by
              rw [← hro, hj]
              rfl
            injection hro' with h1'
            right
            constructor
            · rw [← h1']
              exact stopMining_trace _
            · rw [← h1']
              rfl
        rcases hgood with hns2 | ⟨htr2, hq2⟩
        · exact ⟨no_stop_not_bad st2.trace hns2, fun hmem => absurd hmem hns2⟩
        · constructor
          · rw [htr2]
            intro hbad
            rcases (emitAfterStop_append _ _).mp hbad with hb | hb | ⟨hb, -⟩
            · exact h1 hb
            · have hb' : (st.algorithms.map (fun a => TraceEvent.setDev a.id []) ++
                  st.miners.map TraceEvent.unload).contains TraceEvent.emitStatus = true ∨
                  emitAfterStopB (st.algorithms.map (fun a => TraceEvent.setDev a.id []) ++
                    st.miners.map TraceEvent.unload) = true := by
                simp only [emitAfterStopB, Bool.or_eq_true] at hb
                exact hb
              rcases hb' with hb' | hb'
              · have : TraceEvent.emitStatus ∈
                    (st.algorithms.map (fun a => TraceEvent.setDev a.id []) ++
                      st.miners.map TraceEvent.unload) := by
                  simp only [List.contains, List.elem_eq_mem, decide_eq_true_eq] at hb'
                  exact hb'
                exact (shutdown_tail_no_marker st).2 this
              · exact no_stop_not_bad _ (shutdown_tail_no_marker st).1 hb'
            · exact hnostop hb
          · intro _
            exact hq2
      | raised st2 e' =>
        have htr2 : st2.trace = st.trace := by
          cases hj : e.job with
          | switchAlgos =>
            have hro' : switchAlgos o.fetch o.decideO
                { st with queue := st.queue.erase e, now := Nat.max st.now e.time } =
                JobOut.raised st2 e' := by
              rw [← hro, hj]
              rfl
            exact (switchAlgos_trace o.fetch o.decideO
              { st with queue := st.queue.erase e, now := Nat.max st.now e.time }).2
              st2 e' hro'
          | readStatus =>
            have hro' : readStatus o
                { st with queue := st.queue.erase e, now := Nat.max st.now e.time } =
                JobOut.raised st2 e' := by
              rw [← hro, hj]
              rfl
            exact (readStatus_trace o
              { st with queue := st.queue.erase e, now := Nat.max st.now e.time }).2
              st2 e' hro'
          | stopMining =>
            have hro' : JobOut.ok (stopMining
                { st with queue := st.queue.erase e, now := Nat.max st.now e.time }) =
                JobOut.raised st2 e' := by
              rw [← hro, hj]
              rfl
            exact JobOut.noConfusion hro'
        constructor
        · show ¬ emitAfterStopB st2.trace = true
          rw [htr2]
          exact h1
        · show TraceEvent.stopStart ∈ st2.trace → _
          rw [htr2]
          intro hmem
          exact absurd hmem hnostop

theorem schedRun_preserves (o : Nat → Oracle) :
    ∀ (fuel : Nat) (st : MiningState),
      ¬ emitAfterStopB st.trace = true →
      (TraceEvent.stopStart ∈ st.trace → st.queue = []) →
      ¬ emitAfterStopB ((schedRun o fuel st).trace) = true := by
  intro fuel
  induction fuel with
  | zero => intro st h1 h2; exact h1
  | succ n ih =>
    intro st h1 h2
    obtain ⟨h1', h2'⟩ := schedStep_preserves (o n) st h1 h2
    exact ih (schedStep (o n) st) h1' h2'

/-- Claim C6: from any state whose trace does not yet contain the
shutdown marker, no execution of the scheduler loop ever posts a
StatusSnapshot after `_stop_mining` has started clearing device sets:
the final trace never shows an `emitStatus` after a `stopStart`.  Since
`stop()` followed by `join` returns only after the loop has terminated,
no snapshot is emitted (posted to the sink) after `stop()` returns
either. -/
theorem claim_C6 (o : Nat → Oracle) (fuel : Nat) (st : MiningState)
    (h : TraceEvent.stopStart ∉ st.trace) :
    emitAfterStopB ((schedRun o fuel st).trace) = false := by
  have hres := schedRun_preserves o fuel st (no_stop_not_bad st.trace h)
    (fun hmem => absurd hmem h)
  exact Bool.eq_false_iff.mpr hres

/-- Witness for C6: `stop()` is called against a running state with a
pending status job; running the loop to completion yields a trace with
no status emission after the shutdown marker. -/
theorem claim_C6_witness :
    TraceEvent.stopStart ∉ (stopCall stRun).trace ∧
    emitAfterStopB ((schedRun (fun _ => oFail) 4 (stopCall stRun)).trace) = false :=
  ⟨by decide, claim_C6 (fun _ => oFail) 4 (stopCall stRun) (by decide)⟩

-- ### Crash detection and snapshot consistency (C8, C10)

theorem foldCheck_engines (liveR : Nat → Bool) (l : List Algorithm) :
    ∀ st : MiningState,
      (∀ b ∈ l, liveR b.parent = false) →
      (∀ b ∈ l, (st.engines.lookup b.parent).isSome) →
      ∃ st', foldCheck liveR l st = JobOut.ok st' ∧
        (∃ ext, st'.log = st.log ++ ext) ∧
        st'.currentPayrates = st.currentPayrates ∧
        st'.queue = st.queue ∧ st'.now = st.now ∧ st'.seqCtr = st.seqCtr ∧
        st'.snapshots = st.snapshots ∧ st'.trace = st.trace ∧
        (∀ eng es, st.engines.lookup eng = some es →
          st'.engines.lookup eng = some (
            if es.running = false ∧ l.any (fun b => b.parent == eng) = true
            then ⟨true, es.reloads + 1, es.unloads⟩ else es)) ∧
        (∀ eng es, st.engines.lookup eng = some es → es.running = false →
          l.any (fun b => b.parent == eng) = true →
          ∃ b, b ∈ l ∧ b.parent = eng ∧ LogMsg.errCrash b.name ∈ st'.log) := by
  induction l with
  | nil =>
    intro st _ _
    refine ⟨st, rfl, ⟨[], by simp⟩, rfl, rfl, rfl, rfl, rfl, rfl, ?_, ?_⟩
    · intro eng es h
      rw [if_neg]
      · exact h
      · rintro ⟨-, hc⟩
        simp at hc
    · intro eng es h hdead hany
      simp at hany
  | cons a rest ih =>
    intro st hlive hpar
    have hla : liveR a.parent = false := hlive a (List.mem_cons_self _ _)
    obtain ⟨es0, heng⟩ := Option.isSome_iff_exists.mp (hpar a (List.mem_cons_self _ _))
    by_cases hrun : es0.running
    · have heq : foldCheck liveR (a :: rest) st = foldCheck liveR rest st := by
        rw [foldCheck_cons_eq]
        simp only [hla, heng, hrun]
        rfl
      obtain ⟨st', hfc, hlog, hcp, hq, hn, hsq, hsn, htr, hengs, hcrash⟩ :=
        ih st (fun b hb => hlive b (List.mem_cons_of_mem _ hb))
          (fun b hb => hpar b (List.mem_cons_of_mem _ hb))
      refine ⟨st', by rw [heq]; exact hfc, hlog, hcp, hq, hn, hsq, hsn, htr, ?_, ?_⟩
      · intro eng es h
        rw [hengs eng es h]
        cases hpe : (a.parent == eng) with
        | false =>
          have hanyeq : (a :: rest).any (fun b => b.parent == eng) =
              rest.any (fun b => b.parent == eng) := by
            simp [List.any_cons, hpe]
          rw [hanyeq]
        | true =>
          have hpe' : a.parent = eng := beq_iff_eq.mp hpe
          rw [hpe'] at heng
          have hes : es = es0 := by
            have := h.symm.trans heng
            injection this
          have hrun' : es.running = true := by rw [hes]; exact hrun
          rw [if_neg, if_neg]
          · rintro ⟨hc, -⟩
            rw [hrun'] at hc
            exact Bool.noConfusion hc
          · rintro ⟨hc, -⟩
            rw [hrun'] at hc
            exact Bool.noConfusion hc
      · intro eng es h hdead hany
        cases hpe : (a.parent == eng) with
        | true =>
          exfalso
          have hpe' : a.parent = eng := beq_iff_eq.mp hpe
          rw [hpe'] at heng
          have hes : es = es0 := by
            have := h.symm.trans heng
            injection this
          rw [hes] at hdead
          rw [hdead] at hrun
          exact Bool.noConfusion hrun
        | false =>
          have hany' : rest.any (fun b => b.parent == eng) = true := by
            simpa [List.any_cons, hpe] using hany
          obtain ⟨b, hb, hbp, hbl⟩ := hcrash eng es h hdead hany'
          exact ⟨b, List.mem_cons_of_mem _ hb, hbp, hbl⟩
    · have heq : foldCheck liveR (a :: rest) st =
          foldCheck liveR rest
            { st with
                log := st.log ++ [LogMsg.errCrash a.name]
                engines := updateAssoc a.parent ⟨true, es0.reloads + 1, es0.unloads⟩
                  st.engines } := by
        rw [foldCheck_cons_eq]
        simp only [hla, heng, hrun]
        rfl
      have hpar' : ∀ b ∈ rest,
          (({ st with
              log := st.log ++ [LogMsg.errCrash a.name]
              engines := updateAssoc a.parent ⟨true, es0.reloads + 1, es0.unloads⟩
                st.engines } : MiningState).engines.lookup b.parent).isSome := by
        intro b hb
        show ((updateAssoc a.parent ⟨true, es0.reloads + 1, es0.unloads⟩
          st.engines).lookup b.parent).isSome
        rw [updateAssoc_lookup]
        by_cases hbp : b.parent = a.parent
        · rw [if_pos hbp]
          rfl
        · rw [if_neg hbp]
          exact hpar b (List.mem_cons_of_mem _ hb)
      obtain ⟨st', hfc, ⟨ext, hlog⟩, hcp, hq, hn, hsq, hsn, htr, hengs, hcrash⟩ :=
        ih _ (fun b hb => hlive b (List.mem_cons_of_mem _ hb)) hpar'
      have hrun0 : es0.running = false := by
        cases h' : es0.running
        · rfl
        · exact absurd h' hrun
      refine ⟨st', by rw [heq]; exact hfc,
        ⟨[LogMsg.errCrash a.name] ++ ext, by rw [hlog]; simp⟩,
        hcp, hq, hn, hsq, hsn, htr, ?_, ?_⟩
      · intro eng es h
        by_cases hpe : a.parent = eng
        · have hes : es = es0 := by
            rw [hpe] at heng
            have := h.symm.trans heng
            injection this
          have hsN : ((updateAssoc a.parent ⟨true, es0.reloads + 1, es0.unloads⟩
              st.engines).lookup eng) = some ⟨true, es0.reloads + 1, es0.unloads⟩ := by
            rw [updateAssoc_lookup, if_pos hpe.symm]
          have hre := hengs eng ⟨true, es0.reloads + 1, es0.unloads⟩ hsN
          rw [hre, if_neg, if_pos]
          · rw [hes]
          · refine ⟨by rw [hes]; exact hrun0, ?_⟩
            have hbeq : (a.parent == eng) = true := beq_iff_eq.mpr hpe
            simp [List.any_cons, hbeq]
          · rintro ⟨hc, -⟩
            exact Bool.noConfusion hc
        · have hsN : ((updateAssoc a.parent ⟨true, es0.reloads + 1, es0.unloads⟩
              st.engines).lookup eng) = some es := by
            rw [updateAssoc_lookup, if_neg (fun hc => hpe hc.symm)]
            exact h
          have hre := hengs eng es hsN
          rw [hre]
          have hbeq : (a.parent == eng) = false := beq_eq_false_iff_ne.mpr hpe
          have hanyeq : (a :: rest).any (fun b => b.parent == eng) =
              rest.any (fun b => b.parent == eng) := by
            simp [List.any_cons, hbeq]
          rw [hanyeq]
      · intro eng es h hdead hany
        by_cases hpe : a.parent = eng
        · refine ⟨a, List.mem_cons_self _ _, hpe, ?_⟩
          rw [hlog]
          apply List.mem_append_left
          show LogMsg.errCrash a.name ∈ st.log ++ [LogMsg.errCrash a.name]
          exact List.mem_append_right _ (List.mem_singleton.mpr rfl)
        · have hbeq : (a.parent == eng) = false := beq_eq_false_iff_ne.mpr hpe
          have hany' : rest.any (fun b => b.parent == eng) = true := by
            simpa [List.any_cons, hbeq] using hany
          have hsN : ((updateAssoc a.parent ⟨true, es0.reloads + 1, es0.unloads⟩
              st.engines).lookup eng) = some es := by
            rw [updateAssoc_lookup, if_neg (fun hc => hpe hc.symm)]
            exact h
          obtain ⟨b, hb, hbp, hbl⟩ := hcrash eng es hsN hdead hany'
          exact ⟨b, List.mem_cons_of_mem _ hb, hbp, hbl⟩

theorem exceptSum_ok_of_all (l : List (Except PyError Rat))
    (h : ∀ x ∈ l, ∃ v, x = Except.ok v) : ∃ v, exceptSum l = Except.ok v := by
  induction l with
  | nil => exact ⟨0, rfl⟩
  | cons x xs ih =>
    obtain ⟨v, hv⟩ := h x (List.mem_cons_self _ _)
    obtain ⟨s, hs⟩ := ih (fun y hy => h y (List.mem_cons_of_mem _ hy))
    refine ⟨v + s, ?_⟩
    simp only [exceptSum, hv, hs]

theorem statusRevenue_ok (pr : List (String × Rat)) (spd : List Rat) (a : Algorithm)
    (hpr : ∀ i < a.algorithms.length, (pr.lookup (a.algorithms.getD i "")).isSome)
    (hlen : a.algorithms.length ≤ spd.length) :
    ∃ v, statusRevenue pr spd a = Except.ok v := by
  apply exceptSum_ok_of_all
  intro x hx
  obtain ⟨i, hi, hterm⟩ := List.mem_map.mp hx
  have hi' : i < a.algorithms.length := List.mem_range.mp hi
  obtain ⟨p, hp⟩ := Option.isSome_iff_exists.mp (hpr i hi')
  refine ⟨p * spd.getD i default, ?_⟩
  rw [← hterm]
  unfold statusTerm pyLookup pyGet
  rw [hp, if_pos (lt_of_lt_of_le hi' hlen)]

theorem dictCompE_ok {α β : Type} (f : α → Except PyError β) (keys : List α)
    (h : ∀ k ∈ keys, ∃ v, f k = Except.ok v) :
    ∃ m, dictCompE f keys = Except.ok m ∧ m.map Prod.fst = keys := by
  induction keys with
  | nil => exact ⟨[], rfl, rfl⟩
  | cons k rest ih =>
    obtain ⟨v, hv⟩ := h k (List.mem_cons_self _ _)
    obtain ⟨m, hm, hkeys⟩ := ih (fun x hx => h x (List.mem_cons_of_mem _ hx))
    refine ⟨(k, v) :: m, ?_, ?_⟩
    · simp only [dictCompE, hv, hm]
    · simp [hkeys]

theorem pyDedupAux_sub {α : Type} [DecidableEq α] :
    ∀ (l : List α) (seen : List α) (x : α), x ∈ pyDedupAux seen l → x ∈ l := by
  intro l
  induction l with
  | nil => intro seen x h; exact absurd h (List.not_mem_nil x)
  | cons y ys ih =>
    intro seen x h
    unfold pyDedupAux at h
    by_cases hy : y ∈ seen
    · rw [if_pos hy] at h
      exact List.mem_cons_of_mem _ (ih seen x h)
    · rw [if_neg hy] at h
      rcases List.mem_cons.mp h with hxy | hx
      · rw [hxy]
        exact List.mem_cons_self _ _
      · exact List.mem_cons_of_mem _ (ih (y :: seen) x hx)

theorem mem_pyDedupAux {α : Type} [DecidableEq α] :
    ∀ (l : List α) (seen : List α) (x : α), x ∈ l → x ∉ seen →
      x ∈ pyDedupAux seen l := by
  intro l
  induction l with
  | nil => intro seen x h _; exact absurd h (List.not_mem_nil x)
  | cons y ys ih =>
    intro seen x hx hseen
    unfold pyDedupAux
    by_cases hy : y ∈ seen
    · rw [if_pos hy]
      rcases List.mem_cons.mp hx with hxy | hx'
      · exact absurd (hxy ▸ hy) hseen
      · exact ih seen x hx' hseen
    · rw [if_neg hy]
      by_cases hxy : x = y
      · rw [hxy]
        exact List.mem_cons_self _ _
      · rcases List.mem_cons.mp hx with hxy' | hx'
        · exact absurd hxy' hxy
        · refine List.mem_cons_of_mem _ (ih (y :: seen) x hx' ?_)
          intro hc
          rcases List.mem_cons.mp hc with hc | hc
          · exact hxy hc
          · exact hseen hc

theorem pyDedup_mem {α : Type} [DecidableEq α] (l : List α) (x : α) :
    x ∈ pyDedup l ↔ x ∈ l := by
  constructor
  · exact pyDedupAux_sub l [] x
  · intro h
    exact mem_pyDedupAux l [] x h (List.not_mem_nil x)

theorem pyDedupAux_nodup {α : Type} [DecidableEq α] :
    ∀ (l : List α) (seen : List α),
      (pyDedupAux seen l).Nodup ∧ ∀ x ∈ pyDedupAux seen l, x ∉ seen := by
  intro l
  induction l with
  | nil => intro seen; exact ⟨List.nodup_nil, by simp [pyDedupAux]⟩
  | cons y ys ih =>
    intro seen
    unfold pyDedupAux
    by_cases hy : y ∈ seen
    · rw [if_pos hy]
      exact ih seen
    · rw [if_neg hy]
      obtain ⟨hnd, hni⟩ := ih (y :: seen)
      constructor
      · refine List.nodup_cons.mpr ⟨?_, hnd⟩
        intro hc
        exact hni y hc (List.mem_cons_self _ _)
      · intro x hx
        rcases List.mem_cons.mp hx with hxy | hx'
        · rw [hxy]
          exact hy
        · intro hc
          exact hni x hx' (List.mem_cons_of_mem _ hc)

theorem pyDedup_nodup {α : Type} [DecidableEq α] (l : List α) :
    (pyDedup l).Nodup := (pyDedupAux_nodup l []).1

theorem map_fst_pair_map {α β : Type} (f : α → β) :
    ∀ l : List α, (l.map (fun k => (k, f k))).map Prod.fst = l := by
  intro l
  induction l with
  | nil => rfl
  | cons x xs ih => simp [ih]

theorem dictComp_keys {α β : Type} [DecidableEq α] (keys : List α) (f : α → β) :
    (dictComp keys f).map Prod.fst = pyDedup keys :=
  map_fst_pair_map f (pyDedup keys)

theorem readStatus_run (o : Oracle) (st : MiningState) (asg : List (Nat × Algorithm))
    (pr : List (String × Rat))
    (hasg : st.assignments = some asg)
    (hpr : st.currentPayrates = some pr)
    (hlive : ∀ b ∈ asg.map Prod.snd, o.liveR b.parent = false)
    (heng : ∀ b ∈ asg.map Prod.snd, (st.engines.lookup b.parent).isSome)
    (hprs : ∀ b ∈ asg.map Prod.snd, ∀ i < b.algorithms.length,
        (pr.lookup (b.algorithms.getD i "")).isSome)
    (hspd : ∀ b ∈ asg.map Prod.snd, b.algorithms.length ≤ (o.speedsO b).length) :
    ∃ st' revs, readStatus o st = JobOut.ok st' ∧
      revs.map Prod.fst = pyDedup (asg.map Prod.snd) ∧
      st'.snapshots = st.snapshots ++
        [⟨dictComp (asg.map Prod.snd) (fun a => o.speedsO a), revs,
          dictComp (asg.map Prod.snd) (fun a => inverseImage asg a)⟩] ∧
      st'.queue = st.queue ++
        [⟨st.now + MINING_UPDATE_SECS, STATUS_PRIORITY, st.seqCtr, JobKind.readStatus⟩] ∧
      st'.trace = st.trace ++ [TraceEvent.emitStatus] ∧
      (∀ eng es, st.engines.lookup eng = some es →
        st'.engines.lookup eng = some (
          if es.running = false ∧ (asg.map Prod.snd).any (fun b => b.parent == eng) = true
          then ⟨true, es.reloads + 1, es.unloads⟩ else es)) ∧
      (∀ eng es, st.engines.lookup eng = some es → es.running = false →
        (asg.map Prod.snd).any (fun b => b.parent == eng) = true →
        ∃ b, b ∈ asg.map Prod.snd ∧ b.parent = eng ∧
          LogMsg.errCrash b.name ∈ st'.log) := by
  obtain ⟨stA, hfc, ⟨ext, hlog⟩, hcp, hq, hn, hsq, hsn, htr, hengs, hcrash⟩ :=
    foldCheck_engines o.liveR (asg.map Prod.snd) st hlive heng
  have hprA : stA.currentPayrates = some pr := by rw [hcp, hpr]
  have hdcpre : ∀ k ∈ pyDedup (asg.map Prod.snd),
      ∃ v, statusRevenue pr (o.speedsO k) k = Except.ok v := by
    intro k hk
    have hk' : k ∈ asg.map Prod.snd := (pyDedup_mem _ k).mp hk
    exact statusRevenue_ok pr (o.speedsO k) k (hprs k hk') (hspd k hk')
  obtain ⟨revs, hdc, hkeys⟩ := dictCompE_ok
    (fun a => statusRevenue pr (o.speedsO a) a) (pyDedup (asg.map Prod.snd)) hdcpre
  have heq : readStatus o st = JobOut.ok (schedEnter MINING_UPDATE_SECS
      STATUS_PRIORITY JobKind.readStatus
      { stA with
          snapshots := stA.snapshots ++
            [⟨dictComp (asg.map Prod.snd) (fun a => o.speedsO a), revs,
              dictComp (asg.map Prod.snd) (fun a => inverseImage asg a)⟩]
          trace := stA.trace ++ [TraceEvent.emitStatus] }) := by
    unfold readStatus
    simp only [hasg, hfc, hprA, hdc]
  refine ⟨_, revs, heq, hkeys, ?_, ?_, ?_, ?_, ?_⟩
  · show stA.snapshots ++ _ = st.snapshots ++ _
    rw [hsn]
  · show stA.queue ++ [⟨stA.now + MINING_UPDATE_SECS, STATUS_PRIORITY, stA.seqCtr,
        JobKind.readStatus⟩] = _
    rw [hq, hn, hsq]
  · show stA.trace ++ [TraceEvent.emitStatus] = _
    rw [htr]
  · intro eng es h
    exact hengs eng es h
  · intro eng es h hdead hany
    exact hcrash eng es h hdead hany

/-- Claim C8: in a `_read_status` cycle with healthy external queries,
when an active algorithm's backing engine reports not running, an error
is logged for that engine and `reload()` is called on it exactly once
during the cycle (its reload counter increases by exactly one); the
cycle still completes, appending one StatusSnapshot, and re-enters
itself with the fixed interval and status priority. -/
theorem claim_C8 (o : Oracle) (st : MiningState) (asg : List (Nat × Algorithm))
    (pr : List (String × Rat)) (a : Algorithm) (es : EngineState)
    (hasg : st.assignments = some asg)
    (hpr : st.currentPayrates = some pr)
    (hlive : ∀ b ∈ asg.map Prod.snd, o.liveR b.parent = false)
    (heng : ∀ b ∈ asg.map Prod.snd, (st.engines.lookup b.parent).isSome)
    (hprs : ∀ b ∈ asg.map Prod.snd, ∀ i < b.algorithms.length,
        (pr.lookup (b.algorithms.getD i "")).isSome)
    (hspd : ∀ b ∈ asg.map Prod.snd, b.algorithms.length ≤ (o.speedsO b).length)
    (ha : a ∈ asg.map Prod.snd)
    (haeng : st.engines.lookup a.parent = some es)
    (hdead : es.running = false) :
    ∃ st', readStatus o st = JobOut.ok st' ∧
      st'.engines.lookup a.parent = some ⟨true, es.reloads + 1, es.unloads⟩ ∧
      (∃ b, b ∈ asg.map Prod.snd ∧ b.parent = a.parent ∧
        LogMsg.errCrash b.name ∈ st'.log) ∧
      st'.snapshots.length = st.snapshots.length + 1 ∧
      st'.queue = st.queue ++
        [⟨st.now + MINING_UPDATE_SECS, STATUS_PRIORITY, st.seqCtr, JobKind.readStatus⟩] := by
  obtain ⟨st', revs, hok, hkeys, hsn, hq, htr, hengs, hcrash⟩ :=
    readStatus_run o st asg pr hasg hpr hlive heng hprs hspd
  have hany : (asg.map Prod.snd).any (fun b => b.parent == a.parent) = true :=
    List.any_eq_true.mpr ⟨a, ha, by simp⟩
  refine ⟨st', hok, ?_, hcrash a.parent es haeng hdead hany, ?_, hq⟩
  · have := hengs a.parent es haeng
    rw [this, if_pos ⟨hdead, hany⟩]
  · rw [hsn]
    simp

/-- Claim C10: every StatusSnapshot emitted by `_read_status` is
internally consistent: its speeds, revenue and devices dicts all have
exactly the same key list, namely the distinct algorithms appearing as
values of the current assignment (first-occurrence order), with one
entry per distinct algorithm even when several devices share an
algorithm. -/
theorem claim_C10 (o : Oracle) (st : MiningState) (asg : List (Nat × Algorithm))
    (pr : List (String × Rat))
    (hasg : st.assignments = some asg)
    (hpr : st.currentPayrates = some pr)
    (hlive : ∀ b ∈ asg.map Prod.snd, o.liveR b.parent = false)
    (heng : ∀ b ∈ asg.map Prod.snd, (st.engines.lookup b.parent).isSome)
    (hprs : ∀ b ∈ asg.map Prod.snd, ∀ i < b.algorithms.length,
        (pr.lookup (b.algorithms.getD i "")).isSome)
    (hspd : ∀ b ∈ asg.map Prod.snd, b.algorithms.length ≤ (o.speedsO b).length) :
    ∃ st' snap, readStatus o st = JobOut.ok st' ∧
      st'.snapshots = st.snapshots ++ [snap] ∧
      snap.speeds.map Prod.fst = pyDedup (asg.map Prod.snd) ∧
      snap.revenue.map Prod.fst = pyDedup (asg.map Prod.snd) ∧
      snap.devices.map Prod.fst = pyDedup (asg.map Prod.snd) ∧
      (pyDedup (asg.map Prod.snd)).Nodup := by
  obtain ⟨st', revs, hok, hkeys, hsn, hq, htr, hengs, hcrash⟩ :=
    readStatus_run o st asg pr hasg hpr hlive heng hprs hspd
  refine ⟨st', _, hok, hsn, ?_, hkeys, ?_, pyDedup_nodup _⟩
  · exact dictComp_keys _ _
  · exact dictComp_keys _ _

/-- Witness for C8: device 7 runs `algC8`, whose engine (2 reloads so
far) is down; the cycle reloads it exactly once (counter 3), logs the
crash, emits a snapshot and reschedules. -/
theorem claim_C8_witness :
    ∃ st', readStatus oC8 stC8 = JobOut.ok st' ∧
      st'.engines.lookup algC8.parent = some ⟨true, 3, 0⟩ ∧
      (∃ b, b ∈ ([(7, algC8)] : List (Nat × Algorithm)).map Prod.snd ∧
        b.parent = algC8.parent ∧ LogMsg.errCrash b.name ∈ st'.log) ∧
      st'.snapshots.length = stC8.snapshots.length + 1 ∧
      st'.queue = stC8.queue ++
        [⟨stC8.now + MINING_UPDATE_SECS, STATUS_PRIORITY, stC8.seqCtr,
          JobKind.readStatus⟩] :=
  claim_C8 oC8 stC8 [(7, algC8)] [("l2", 2)] algC8 ⟨false, 2, 0⟩
    rfl rfl (by decide) (by decide) (by decide) (by decide) (by decide) rfl rfl

/-- Witness for C10: devices 7 and 8 both run `algC10`; the emitted
snapshot has exactly one key, `algC10`, in all three dicts. -/
theorem claim_C10_witness :
    ∃ st' snap, readStatus oC10 stC10 = JobOut.ok st' ∧
      st'.snapshots = stC10.snapshots ++ [snap] ∧
      snap.speeds.map Prod.fst =
        pyDedup (([(7, algC10), (8, algC10)] : List (Nat × Algorithm)).map Prod.snd) ∧
      snap.revenue.map Prod.fst =
        pyDedup (([(7, algC10), (8, algC10)] : List (Nat × Algorithm)).map Prod.snd) ∧
      snap.devices.map Prod.fst =
        pyDedup (([(7, algC10), (8, algC10)] : List (Nat × Algorithm)).map Prod.snd) ∧
      (pyDedup (([(7, algC10), (8, algC10)] : List (Nat × Algorithm)).map
        Prod.snd)).Nodup :=
  claim_C10 oC10 stC10 [(7, algC10), (8, algC10)] [("xr", 1)]
    rfl rfl (by decide) (by decide) (by decide) (by decide)

end Nux
